import Mathlib

/-!
# Verification of the `roadtrip-cache` crate

A shallow embedding of `roadtrip-cache/src/lib.rs`, `lock.rs` and the
recovery walk of `roadtrip-walkdir`, together with proofs about the claims
of the specification.

The on-disk state is modelled as a list of filesystem objects, each carrying
its path (as components relative to the cache root), a directory flag, a byte
size and a modification time.  The in-memory `LruIndex`
(`linked_hash_map::LinkedHashMap<PathBuf, u64>`) is modelled as an
association list in recency order: the head is the oldest entry, the last
element the most recently used one, matching the iteration order of
`LinkedHashMap::entries` (oldest first) and the fact that `get_refresh`
moves an entry to the back while a vacant `entry(..).or_insert(..)`
appends at the back.

Machine integers (`u64`) are modelled as `Nat`; the single subtraction that
could underflow in the source is guarded there by an explicit comparison,
which the embedding reproduces.
-/

deriving instance DecidableEq for Except

namespace Roadtrip

/-- One filesystem object below the cache root: its path, split into
components relative to the root, whether it is a directory, its byte size and
its modification time. -/
structure FsObject where
  rel : List String
  isDir : Bool
  size : Nat
  mtime : Nat
deriving DecidableEq, Repr

/-- An on-disk tree below the cache root, in directory-walk order. -/
abbrev Disk := List FsObject

/-- Whether `o` is an immediate file child of the entry directory `root/k`,
i.e. a non-directory object whose relative path is `k/<name>`. -/
def isEntryFile (k : String) (o : FsObject) : Bool :=
  !o.isDir &&
    match o.rel with
    | [k1, _] => k1 = k
    | _ => false

/-- Whether the entry directory `root/k` exists on disk. -/
def dirExists (d : Disk) (k : String) : Bool :=
  d.any fun o => o.rel = [k] && o.isDir

/-- Whether any object (file or directory) exists at `root/k/n`. -/
def fileAt (d : Disk) (k n : String) : Bool :=
  d.any fun o => o.rel = [k, n]

/-- The names of the immediate file children of `root/k`, as recovered by
`OccupiedEntry` construction (strip the entry path, keep files only). -/
def entryFileNames (d : Disk) (k : String) : List String :=
  (d.filter (isEntryFile k)).filterMap fun o => o.rel.get? 1

/-- `set_file_handle_times` applied to every opened file of the entry
`root/k`: the modification times of its immediate file children become
`now`.  Models the recency refresh performed by `Cache::occupied_entry`. -/
def touchFiles (d : Disk) (k : String) (now : Nat) : Disk :=
  d.map fun o => if isEntryFile k o then { o with mtime := now } else o

/-- `tokio::fs::remove_dir_all(root/k)`: every object whose path starts with
component `k` disappears. -/
def removeDirAll (k : String) (d : Disk) : Disk :=
  d.filter fun o => o.rel.head? ≠ some k

/-- Remove the directories of all evicted keys. -/
def removeDirs (ks : List String) (d : Disk) : Disk :=
  ks.foldl (fun d k => removeDirAll k d) d

/-- The in-memory LRU index, `LinkedHashMap<PathBuf, u64>`: keys are the
entry-directory paths (identified by their key component), values the
cumulative byte sizes.  Head of the list = oldest entry. -/
abbrev Index := List (String × Nat)

/-- `map.values().sum()`. -/
def sumSizes (l : Index) : Nat := (l.map Prod.snd).sum

/-- Association-list lookup, first occurrence. -/
def lookupKey (k : String) : Index → Option Nat
  | [] => none
  | e :: rest => if e.1 = k then some e.2 else lookupKey k rest

/-- `*map.entry(path).or_insert(0) += n` of `linked_hash_map`: an existing
entry is updated in place (its recency position is unchanged), a missing
key is appended at the back (most recently used). -/
def orInsertAdd (k : String) (n : Nat) : Index → Index
  | [] => [(k, n)]
  | e :: rest => if e.1 = k then (e.1, e.2 + n) :: rest else e :: orInsertAdd k n rest

/-- Remove the (first) entry with key `k`. -/
def removeKey (k : String) : Index → Index
  | [] => []
  | e :: rest => if e.1 = k then rest else e :: removeKey k rest

/-- `map.get_refresh(&k)`: `none` when the key is absent; otherwise the
entry is moved to the back of the recency order. -/
def getRefresh (k : String) (l : Index) : Option Index :=
  match lookupKey k l with
  | none => none
  | some v => some (removeKey k l ++ [(k, v)])

/-- The most-recently-used key of the index (the last one considered for
eviction), i.e. the key of the last element. -/
def mru (l : Index) : Option String := l.getLast?.map Prod.fst

/-- The eviction loop of `Cache::insert`, translated from the source:

`while removed < missing { let entry = entries.next() else break;
if entry.key() == &path { continue; }
fs::remove_dir_all(entry.key()); removed += entry.remove(); }`

Returns the surviving index, the list of evicted keys in eviction order and
the final `removed` accumulator. -/
def evictLoop (path : String) (missing : Nat) : Index → Nat → Index × List String × Nat
  | [], removed => ([], [], removed)
  | e :: rest, removed =>
    if missing ≤ removed then (e :: rest, [], removed)
    else if e.1 = path then
      let r := evictLoop path missing rest removed
      (e :: r.1, r.2)
    else
      let r := evictLoop path missing rest (removed + e.2)
      (r.1, e.1 :: r.2.1, r.2.2)

/-- The state of a live `Cache`: the LRU index, the configured capacity and
the on-disk tree below the root. -/
structure CState where
  items : Index
  capacity : Nat
  disk : Disk
deriving DecidableEq, Repr

/-- `Cache::insert(path, new_sz)`, translated from the source: compute the
current total, the available headroom (guarded subtraction), run the
eviction loop when the headroom is insufficient (deleting each evicted
entry's directory), then add `new_sz` cumulatively to `path`'s entry. -/
def cacheInsert (c : CState) (path : String) (newSz : Nat) : CState :=
  let total := sumSizes c.items
  let available := if total ≤ c.capacity then c.capacity - total else 0
  if available < newSz then
    let r := evictLoop path (newSz - available) c.items 0
    { c with items := orInsertAdd path newSz r.1, disk := removeDirs r.2.1 c.disk }
  else
    { c with items := orInsertAdd path newSz c.items }

/-- `check_path` from the source, parametrised by the alphanumeric test
(`char::is_alphanumeric` in Rust): first character must exist, must not be
`.` and must be alphanumeric; every later character must be `.` or
alphanumeric. -/
def check_path (alnum : Char → Bool) (key : String) : Bool :=
  match key.data with
  | [] => false
  | c :: rest =>
    if c = '.' then false
    else if !alnum c then false
    else rest.all fun x => x = '.' || alnum x

/-- The error cases of `Cache::entry` that the model distinguishes. -/
inductive EntryError
  | invalidKey
  | readDirFail (key : String)
deriving DecidableEq, Repr

/-- The observable outcome of `Cache::entry`: an occupied entry listing the
names of the opened files, a vacant entry, a returned error, or the fatal
`panic!` of `occupied_entry` on an index/disk mismatch. -/
inductive EntryOutcome
  | occupied (files : List String)
  | vacant
  | failed (e : EntryError)
  | fatal
deriving DecidableEq, Repr

/-- `Cache::entry(key)` followed by `occupied_entry`/`vacant_entry`,
translated from the source.  `rdFault` injects an I/O failure of
`fs::read_dir` other than `NotFound` (the `Err(e)` arm); with no fault the
read succeeds exactly when the entry directory exists.  On the occupied
path the files are opened and their modification times set to `now`
*before* the `get_refresh` lookup whose `None` case is the fatal branch. -/
def cacheEntry (c : CState) (key : String) (now : Nat) (rdFault : Bool)
    (alnum : Char → Bool) : EntryOutcome × CState :=
  if !check_path alnum key then (.failed .invalidKey, c)
  else if rdFault then (.failed (.readDirFail key), c)
  else if !dirExists c.disk key then (.vacant, c)
  else
    let d1 := touchFiles c.disk key now
    match getRefresh key c.items with
    | none => (.fatal, { c with disk := d1 })
    | some items1 => (.occupied (entryFileNames c.disk key), { c with items := items1, disk := d1 })

/-- The error cases of `VacantEntry::insert_with` that the model reaches;
paths are carried as (key, name). -/
inductive InsertError
  | invalidName
  | createFail (key name : String)
  | writeFail (key name : String)
deriving DecidableEq, Repr

/-- The outcome of `VacantEntry::insert_with`: the reopened read-only file
(identified by its name) or an error. -/
inductive InsertOutcome
  | ok (name : String)
  | failed (e : InsertError)
deriving DecidableEq, Repr

/-- `fs::create_dir(root/k)` with the `AlreadyExists` case tolerated, as in
`insert_with`. -/
def createDir (d : Disk) (k : String) (now : Nat) : Disk :=
  if dirExists d k then d else d ++ [⟨[k], true, 0, now⟩]

/-- `VacantEntry::insert_with(name, f)`, translated from the source: validate
the name, create the entry directory, exclusively create the file, run the
caller-supplied writer (`writerOk` its success, `written` the bytes it left
in the file), then sync, read the length back, reopen, and register the
size with `Cache::insert`. -/
def insertWith (c : CState) (key name : String) (writerOk : Bool) (written : Nat)
    (now : Nat) (alnum : Char → Bool) : InsertOutcome × CState :=
  if !check_path alnum name then (.failed .invalidName, c)
  else
    let d1 := createDir c.disk key now
    if fileAt d1 key name then (.failed (.createFail key name), { c with disk := d1 })
    else
      let d2 := d1 ++ [⟨[key, name], false, written, now⟩]
      if !writerOk then (.failed (.writeFail key name), { c with disk := d2 })
      else
        (.ok name, cacheInsert { c with disk := d2 } key written)

/-- A sequence of size registrations (`Cache::insert` calls) applied in
order. -/
def insertSeq (c0 : CState) (ops : List (String × Nat)) : CState :=
  ops.foldl (fun c op => cacheInsert c op.1 op.2) c0

/-- A cache state with an empty index. -/
def emptyCache (cap : Nat) (d : Disk) : CState := ⟨[], cap, d⟩

/-! ## Recovery scan (`Cache::new`)

`Cache::new` walks the tree below the canonicalized root (the walker yields
every file and directory).  Directory entries and the `.lock` file are
skipped; every remaining object must have exactly two path components
relative to the root, otherwise construction aborts with a `Structure`
error carrying that object's path.  The surviving objects are grouped by
first component in a `HashMap`, accumulating summed byte length and maximum
modification time, and the groups are finally sorted by maximum
modification time, ascending, to seed the LRU index.

The iteration order of the intermediate `HashMap` is unspecified in Rust;
the model accumulates groups in first-encounter order.  The stable sort by
modification time that follows makes the resulting index canonical up to
groups with equal maximum modification times, which is exactly what the
source guarantees. -/

/-- The grouping accumulator: key, maximum modification time so far, summed
size so far — `HashMap<PathBuf, (FileTime, u64)>` in the source. -/
abbrev GAcc := List (String × Nat × Nat)

/-- `items.entry(key).or_insert((FileTime::zero(), 0))` followed by
`ft_sz.0 = max(ft_sz.0, ft); ft_sz.1 += len`. -/
def groupAdd (k : String) (mt sz : Nat) : GAcc → GAcc
  | [] => [(k, Nat.max 0 mt, 0 + sz)]
  | g :: rest =>
    if g.1 = k then (g.1, Nat.max g.2.1 mt, g.2.2 + sz) :: rest
    else g :: groupAdd k mt sz rest

/-- Lookup in the grouping accumulator. -/
def lookupG (k : String) : GAcc → Option (Nat × Nat)
  | [] => none
  | g :: rest => if g.1 = k then some g.2 else lookupG k rest

/-- The recovery walk of `Cache::new`: skip directories, skip the top-level
`.lock` file, require exactly two path components, group the rest.  A
violating object aborts with its path. -/
def scan : Disk → GAcc → Except (List String) GAcc
  | [], acc => .ok acc
  | o :: rest, acc =>
    if o.isDir then scan rest acc
    else if o.rel = [".lock"] then scan rest acc
    else
      match o.rel with
      | [k, _] => scan rest (groupAdd k o.mtime o.size acc)
      | _ => .error o.rel

/-- One step of a stable insertion sort by maximum modification time:
an element is placed after every element with a smaller-or-equal key, as
Rust's stable `sort_by_key` would leave equal keys in encounter order. -/
def insertSorted (x : String × Nat × Nat) : GAcc → GAcc
  | [] => [x]
  | y :: rest => if x.2.1 < y.2.1 then x :: y :: rest else y :: insertSorted x rest

/-- `sorted.sort_by_key(|(_, (tm, _))| *tm)`: stable sort, ascending by
maximum modification time. -/
def sortByMtime (l : GAcc) : GAcc := l.foldl (fun acc x => insertSorted x acc) []

/-- `Cache::new` after the lock has been obtained: run the recovery scan and
pack the sorted groups (dropping the modification times) into the index. -/
def cacheNew (capacity : Nat) (d : Disk) : Except (List String) CState :=
  match scan d [] with
  | .error p => .error p
  | .ok groups => .ok ⟨(sortByMtime groups).map (fun g => (g.1, g.2.2)), capacity, d⟩

/-- The immediate file children of the entry `root/k`, as the recovery scan
groups them. -/
def groupFiles (d : Disk) (k : String) : Disk := d.filter (isEntryFile k)

/-- Total byte length of the entry `root/k`'s files. -/
def groupSize (d : Disk) (k : String) : Nat := ((groupFiles d k).map FsObject.size).sum

/-- Maximum modification time among the entry `root/k`'s files (0 when there
are none, `FileTime::zero()` being the seed in the source). -/
def groupMax (d : Disk) (k : String) : Nat :=
  ((groupFiles d k).map FsObject.mtime).foldl Nat.max 0

/-- A disk tree the recovery scan accepts: every non-directory object other
than the top-level lock file sits exactly two components below the root. -/
def WellFormed (d : Disk) : Prop :=
  ∀ o ∈ d, o.isDir = false → o.rel ≠ [".lock"] → o.rel.length = 2

instance : DecidablePred WellFormed := fun d =>
  inferInstanceAs (Decidable (∀ o ∈ d, o.isDir = false → o.rel ≠ [".lock"] → o.rel.length = 2))

/-! ## The process lock (`lock.rs`)

`Lock::new` opens or creates the lock file and takes a non-blocking
exclusive advisory OS lock on it (`fd_lock::FdLock::try_lock`); the lock is
per lock-file, not per process, so a second acquisition of the same path
fails with `AlreadyLocked` even from the same process.  Dropping the `Lock`
releases the OS lock and best-effort deletes the lock file.  The
environment (the OS lock table and the set of existing lock files) is
modelled explicitly. -/

/-- The OS state the lock protocol touches: which lock-file paths currently
carry an exclusive advisory lock, and which lock files exist. -/
structure LockSys where
  held : List String
  files : List String
deriving DecidableEq, Repr

/-- Errors of `Cache::new` that the model distinguishes. -/
inductive OpenError
  | alreadyLocked
  | structureErr (p : List String)
deriving DecidableEq, Repr

/-- `Lock::new`: open-or-create the lock file, then `try_lock`; if the path
is already locked the construction fails with `AlreadyLocked` (the file is
left in place). -/
def lockAcquire (s : LockSys) (p : String) : Option LockSys :=
  let files := if p ∈ s.files then s.files else p :: s.files
  if p ∈ s.held then none
  else some { held := p :: s.held, files := files }

/-- `Drop for Lock`: release the OS lock, then best-effort delete the lock
file. -/
def lockRelease (s : LockSys) (p : String) : LockSys :=
  { held := s.held.erase p, files := s.files.erase p }

/-- `Cache::new(root, capacity)` including the locking step: acquire the
lock on `root/.lock` (identified here by the root itself), then run the
recovery scan.  When the scan fails, the freshly constructed `Lock` is
dropped on the error return path, releasing the lock again. -/
def cacheOpen (ls : LockSys) (cap : Nat) (d : Disk) (root : String) :
    Except OpenError CState × LockSys :=
  match lockAcquire ls root with
  | none => (.error .alreadyLocked, ls)
  | some ls1 =>
    match cacheNew cap d with
    | .error p => (.error (.structureErr p), lockRelease ls1 root)
    | .ok c => (.ok c, ls1)

/-- Dropping a live `Cache` drops its `Lock`. -/
def cacheDrop (ls : LockSys) (root : String) : LockSys := lockRelease ls root

/-! ## The eviction algorithm, as the specification words it

A second definition of `Cache::insert`, phrased after the specification's
step list, to be compared with the source translation `cacheInsert`:
`available = max(capacity - current_total, 0)`; if `available >= new_size`
no eviction; otherwise iterate oldest first, skip the entry being written,
delete and remove each other candidate and stop once `removed >= missing`
or no candidates remain; finally add `new_size` to `path`'s entry, creating
it at 0 if new. -/

/-- Replace the value of key `k` (first occurrence). -/
def setValue (k : String) (n : Nat) : Index → Index
  | [] => []
  | e :: rest => if e.1 = k then (e.1, n) :: rest else e :: setValue k n rest

/-- "Add `new_size` to `path`'s cumulative entry in the index (creating it
at 0 if new)", worded from the specification. -/
def orInsertAddSpec (k : String) (n : Nat) (l : Index) : Index :=
  match lookupKey k l with
  | none => l ++ [(k, 0 + n)]
  | some v => setValue k (v + n) l

/-- The specification's eviction loop: for each candidate, oldest first,
skip it when it is the entry being written into, otherwise evict it and
stop once `removed ≥ missing`; stop when no candidates remain. -/
def evictSpecLoop (path : String) (missing : Nat) : Index → Nat → Index × List String × Nat
  | [], removed => ([], [], removed)
  | e :: rest, removed =>
    if e.1 = path then
      let r := evictSpecLoop path missing rest removed
      (e :: r.1, r.2)
    else if missing ≤ removed + e.2 then
      (rest, [e.1], removed + e.2)
    else
      let r := evictSpecLoop path missing rest (removed + e.2)
      (r.1, e.1 :: r.2.1, r.2.2)

/-- `Cache::insert` as the specification words it (§4.5). -/
def insertSpec (c : CState) (path : String) (newSz : Nat) : CState :=
  let total := sumSizes c.items
  let available := Nat.max (c.capacity - total) 0
  if newSz ≤ available then
    { c with items := orInsertAddSpec path newSz c.items }
  else
    let r := evictSpecLoop path (newSz - available) c.items 0
    { c with items := orInsertAddSpec path newSz r.1, disk := removeDirs r.2.1 c.disk }

/-- The keys of the index, in recency order. -/
def keysOf (l : Index) : List String := l.map Prod.fst

/-! ## Basic lemmas about the index operations -/

theorem sumSizes_nil : sumSizes ([] : Index) = 0 := rfl

theorem sumSizes_cons (e : String × Nat) (l : Index) :
    sumSizes (e :: l) = e.2 + sumSizes l := by
  simp [sumSizes]

theorem sumSizes_append (l1 l2 : Index) :
    sumSizes (l1 ++ l2) = sumSizes l1 + sumSizes l2 := by
  simp [sumSizes]

theorem keysOf_cons (e : String × Nat) (l : Index) :
    keysOf (e :: l) = e.1 :: keysOf l := rfl

theorem keysOf_append (l1 l2 : Index) :
    keysOf (l1 ++ l2) = keysOf l1 ++ keysOf l2 := by
  simp [keysOf]

theorem lookupKey_eq_none (k : String) (l : Index) :
    lookupKey k l = none ↔ k ∉ keysOf l := by
  induction l with
  | nil => simp [lookupKey, keysOf]
  | cons e rest ih =>
    by_cases h : e.1 = k
    · simp [lookupKey, h, keysOf]
    · simp [lookupKey, h, keysOf_cons, ih, Ne.symm h]

theorem orInsertAdd_sum (k : String) (n : Nat) (l : Index) :
    sumSizes (orInsertAdd k n l) = sumSizes l + n := by
  induction l with
  | nil => simp [orInsertAdd, sumSizes]
  | cons e rest ih =>
    by_cases h : e.1 = k
    · simp only [orInsertAdd, if_pos h, sumSizes_cons]
      omega
    · simp only [orInsertAdd, if_neg h, sumSizes_cons, ih]
      omega

theorem mem_orInsertAdd_ne (k : String) (n : Nat) (l : Index) (e : String × Nat)
    (he : e ∈ orInsertAdd k n l) (hne : e.1 ≠ k) : e ∈ l := by
  induction l with
  | nil =>
    simp [orInsertAdd] at he
    exact absurd (by rw [he]) hne
  | cons f rest ih =>
    by_cases h : f.1 = k
    · simp only [orInsertAdd, if_pos h] at he
      rcases List.mem_cons.mp he with h1 | h1
      · exact absurd (by rw [h1]; exact h) hne
      · exact List.mem_cons_of_mem _ h1
    · simp only [orInsertAdd, if_neg h] at he
      rcases List.mem_cons.mp he with h1 | h1
      · exact h1 ▸ List.mem_cons_self _ _
      · exact List.mem_cons_of_mem _ (ih h1)

theorem orInsertAdd_of_none (k : String) (n : Nat) (l : Index)
    (h : lookupKey k l = none) : orInsertAdd k n l = l ++ [(k, n)] := by
  induction l with
  | nil => simp [orInsertAdd]
  | cons e rest ih =>
    by_cases he : e.1 = k
    · simp [lookupKey, he] at h
    · simp only [lookupKey, if_neg he] at h
      simp [orInsertAdd, he, ih h]

theorem keysOf_orInsertAdd_of_some (k : String) (n : Nat) (l : Index)
    (h : ∃ v, lookupKey k l = some v) :
    keysOf (orInsertAdd k n l) = keysOf l := by
  induction l with
  | nil => simp [lookupKey] at h
  | cons e rest ih =>
    by_cases he : e.1 = k
    · simp [orInsertAdd, he, keysOf]
    · simp only [lookupKey, if_neg he] at h
      simp [orInsertAdd, he, keysOf_cons, ih h]

theorem orInsertAdd_zero_nonzeros (k q : String) (l : Index)
    (hq : ∀ e ∈ l, e.2 ≠ 0 → e.1 = q) :
    ∀ e ∈ orInsertAdd k 0 l, e.2 ≠ 0 → e.1 = q := by
  induction l with
  | nil =>
    intro e he hnz
    simp [orInsertAdd] at he
    rw [he] at hnz
    simp at hnz
  | cons f rest ih =>
    intro e he hnz
    by_cases h : f.1 = k
    · simp only [orInsertAdd, if_pos h] at he
      rcases List.mem_cons.mp he with h1 | h1
      · have : f.2 ≠ 0 := by
          rw [h1] at hnz
          simpa using hnz
        have := hq f (List.mem_cons_self _ _) this
        rw [h1]
        exact this
      · exact hq e (List.mem_cons_of_mem _ h1) hnz
    · simp only [orInsertAdd, if_neg h] at he
      rcases List.mem_cons.mp he with h1 | h1
      · exact hq e (h1 ▸ List.mem_cons_self _ _) hnz
      · exact ih (fun e he => hq e (List.mem_cons_of_mem _ he)) e h1 hnz

theorem sumSizes_ne_zero (l : Index) (h : sumSizes l ≠ 0) :
    ∃ e ∈ l, e.2 ≠ 0 := by
  induction l with
  | nil => simp [sumSizes] at h
  | cons e rest ih =>
    rw [sumSizes_cons] at h
    by_cases he : e.2 = 0
    · obtain ⟨f, hf, hnz⟩ := ih (by omega)
      exact ⟨f, List.mem_cons_of_mem _ hf, hnz⟩
    · exact ⟨e, List.mem_cons_self _ _, he⟩

theorem sumSizes_keep_drop (p : String) (l : Index) :
    sumSizes (l.filter fun e => e.1 == p) + sumSizes (l.filter fun e => e.1 != p)
      = sumSizes l := by
  induction l with
  | nil => simp [sumSizes]
  | cons e rest ih =>
    by_cases h : e.1 = p
    · simp [List.filter_cons, h, sumSizes_cons]
      omega
    · simp [List.filter_cons, h, sumSizes_cons]
      omega

theorem keysOf_filter_sublist (f : String × Nat → Bool) (l : Index) :
    (keysOf (l.filter f)).Sublist (keysOf l) :=
  (List.filter_sublist l).map Prod.fst

/-! ## The structure of the eviction loop

The loop splits the index into a processed prefix and an untouched tail:
every non-skipped element of the prefix is evicted; the tail is nonempty
only when the loop stopped because `removed` reached `missing`. -/

theorem evictLoop_split (p : String) (m : Nat) :
    ∀ (l : Index) (r : Nat), ∃ pr tl,
      l = pr ++ tl ∧
      evictLoop p m l r =
        (pr.filter (fun e => e.1 == p) ++ tl,
         (pr.filter (fun e => e.1 != p)).map Prod.fst,
         r + sumSizes (pr.filter (fun e => e.1 != p))) ∧
      (tl = [] ∨ m ≤ r + sumSizes (pr.filter (fun e => e.1 != p))) := by
  intro l
  induction l with
  | nil =>
    intro r
    exact ⟨[], [], by simp, by simp [evictLoop, sumSizes], Or.inl rfl⟩
  | cons e rest ih =>
    intro r
    by_cases hm : m ≤ r
    · refine ⟨[], e :: rest, by simp, ?_, Or.inr (by simpa [sumSizes] using hm)⟩
      simp [evictLoop, hm, sumSizes]
    · by_cases hp : e.1 = p
      · obtain ⟨pr, tl, hsplit, heq, hstop⟩ := ih r
        refine ⟨e :: pr, tl, by simp [hsplit], ?_, ?_⟩
        · simp [evictLoop, hm, hp, heq, List.filter_cons]
        · rcases hstop with h | h
          · exact Or.inl h
          · refine Or.inr ?_
            simpa [List.filter_cons, hp] using h
      · obtain ⟨pr, tl, hsplit, heq, hstop⟩ := ih (r + e.2)
        refine ⟨e :: pr, tl, by simp [hsplit], ?_, ?_⟩
        · simp only [evictLoop, if_neg hm, if_neg hp, heq]
          simp [List.filter_cons, hp, sumSizes_cons]
          omega
        · rcases hstop with h | h
          · exact Or.inl h
          · refine Or.inr ?_
            have hf : ((e :: pr).filter (fun e => e.1 != p))
                = e :: pr.filter (fun e => e.1 != p) := by
              simp [List.filter_cons, hp]
            rw [hf, sumSizes_cons]
            omega

/-! ## The capacity invariant -/

/-- The index component of `Cache::insert`, for reasoning at the index
level. -/
def insertItems (cap : Nat) (l : Index) (p : String) (sz : Nat) : Index :=
  let total := sumSizes l
  let available := if total ≤ cap then cap - total else 0
  if available < sz then orInsertAdd p sz (evictLoop p (sz - available) l 0).1
  else orInsertAdd p sz l

theorem cacheInsert_items (c : CState) (p : String) (sz : Nat) :
    (cacheInsert c p sz).items = insertItems c.capacity c.items p sz := by
  simp only [cacheInsert, insertItems]
  split <;> (split <;> rfl)

theorem cacheInsert_capacity (c : CState) (p : String) (sz : Nat) :
    (cacheInsert c p sz).capacity = c.capacity := by
  simp only [cacheInsert]
  split <;> (split <;> rfl)

theorem keysOf_nodup_orInsertAdd (k : String) (n : Nat) (l : Index)
    (h : (keysOf l).Nodup) : (keysOf (orInsertAdd k n l)).Nodup := by
  cases hl : lookupKey k l with
  | none =>
    rw [orInsertAdd_of_none _ _ _ hl, keysOf_append]
    have hk : k ∉ keysOf l := (lookupKey_eq_none k l).mp hl
    refine List.Nodup.append h (List.nodup_singleton k) ?_
    intro a ha hb
    rw [List.mem_singleton.mp hb] at ha
    exact hk ha
  | some v =>
    rw [keysOf_orInsertAdd_of_some _ _ _ ⟨v, hl⟩]
    exact h

/-- One `Cache::insert` step preserves key uniqueness and the (corrected)
capacity invariant, and when `new_size ≥ 1` leaves either a within-capacity
index or an index in which every entry other than `path` has size 0. -/
theorem insertItems_step (cap : Nat) (l : Index) (p : String) (sz : Nat)
    (hnd : (keysOf l).Nodup)
    (hinv : sumSizes l ≤ cap ∨ ∃ q, ∀ e ∈ l, e.2 ≠ 0 → e.1 = q) :
    (keysOf (insertItems cap l p sz)).Nodup ∧
      (sumSizes (insertItems cap l p sz) ≤ cap ∨
        ∃ q, ∀ e ∈ insertItems cap l p sz, e.2 ≠ 0 → e.1 = q) ∧
      (1 ≤ sz → sumSizes (insertItems cap l p sz) ≤ cap ∨
        ∀ e ∈ insertItems cap l p sz, e.1 ≠ p → e.2 = 0) := by
  unfold insertItems
  set total := sumSizes l with htot
  set available := if total ≤ cap then cap - total else 0 with havail
  by_cases hb : available < sz
  · simp only [if_pos hb]
    obtain ⟨pr, tl, hsplit, heq, hstop⟩ := evictLoop_split p (sz - available) l 0
    have h1 : (evictLoop p (sz - available) l 0).1
        = pr.filter (fun e => e.1 == p) ++ tl := by rw [heq]
    have hstop' : tl = [] ∨
        sz - available ≤ 0 + sumSizes (pr.filter (fun e => e.1 != p)) := hstop
    rw [h1]
    set keep := pr.filter (fun e => e.1 == p) with hkeep
    set drops := pr.filter (fun e => e.1 != p) with hdrops
    have hsub : (keysOf (keep ++ tl)).Sublist (keysOf l) := by
      rw [hsplit, keysOf_append, keysOf_append]
      exact (keysOf_filter_sublist _ pr).append_right _
    have hnd1 : (keysOf (keep ++ tl)).Nodup := hnd.sublist hsub
    refine ⟨keysOf_nodup_orInsertAdd _ _ _ hnd1, ?_⟩
    have hD : sumSizes (orInsertAdd p sz (keep ++ tl)) ≤ cap ∨
        ∀ e ∈ orInsertAdd p sz (keep ++ tl), e.1 ≠ p → e.2 = 0 := by
      rcases hstop' with htl | hm
      · subst htl
        refine Or.inr ?_
        intro e he hep
        exfalso
        have he' : e ∈ keep := by
          have := mem_orInsertAdd_ne p sz _ e he hep
          simpa using this
        have hb1 : (e.1 == p) = true := (List.mem_filter.mp he').2
        exact hep (by simpa using hb1)
      · by_cases ht : total ≤ cap
        · refine Or.inl ?_
          rw [orInsertAdd_sum, sumSizes_append]
          have hpart : sumSizes keep + sumSizes drops = sumSizes pr :=
            sumSizes_keep_drop p pr
          have htot2 : total = sumSizes pr + sumSizes tl := by
            rw [htot, hsplit, sumSizes_append]
          have hav : available = cap - total := by rw [havail, if_pos ht]
          omega
        · obtain ⟨q, hq⟩ := hinv.resolve_left ht
          refine Or.inr ?_
          intro e he hep
          by_contra hnz
          have hel : e ∈ keep ++ tl := mem_orInsertAdd_ne p sz _ e he hep
          have hetl : e ∈ tl := by
            rcases List.mem_append.mp hel with h | h
            · exact absurd (by simpa using (List.mem_filter.mp h).2) hep
            · exact h
          have heq1 : e.1 = q :=
            hq e (by rw [hsplit]; exact List.mem_append_right _ hetl) hnz
          have hav : available = 0 := by rw [havail, if_neg ht]
          obtain ⟨f, hf, hfnz⟩ := sumSizes_ne_zero drops (by omega)
          have hfpr : f ∈ pr := (List.mem_filter.mp hf).1
          have hfq : f.1 = q :=
            hq f (by rw [hsplit]; exact List.mem_append_left _ hfpr) hfnz
          have hndk : (keysOf pr ++ keysOf tl).Nodup := by
            rw [← keysOf_append, ← hsplit]
            exact hnd
          have hdisj := (List.nodup_append.mp hndk).2.2
          exact hdisj (hfq ▸ List.mem_map_of_mem Prod.fst hfpr)
            (heq1 ▸ List.mem_map_of_mem Prod.fst hetl)
    constructor
    · rcases hD with h | h
      · exact Or.inl h
      · refine Or.inr ⟨p, ?_⟩
        intro e he hnz
        by_contra hep
        exact hnz (h e he hep)
    · intro _
      exact hD
  · simp only [if_neg hb]
    refine ⟨keysOf_nodup_orInsertAdd _ _ _ hnd, ?_, ?_⟩
    · by_cases ht : total ≤ cap
      · refine Or.inl ?_
        rw [orInsertAdd_sum]
        have hav : available = cap - total := by rw [havail, if_pos ht]
        omega
      · have hav : available = 0 := by rw [havail, if_neg ht]
        have hsz0 : sz = 0 := by omega
        obtain ⟨q, hq⟩ := hinv.resolve_left ht
        subst hsz0
        exact Or.inr ⟨q, orInsertAdd_zero_nonzeros p q l hq⟩
    · intro hsz1
      by_cases ht : total ≤ cap
      · refine Or.inl ?_
        rw [orInsertAdd_sum]
        have hav : available = cap - total := by rw [havail, if_pos ht]
        omega
      · have hav : available = 0 := by rw [havail, if_neg ht]
        omega

/-- The reachability invariant of the index: keys are unique, the capacity
is the configured one, and the total size is within capacity unless all
nonzero-size entries share one key. -/
def CacheInv (cap : Nat) (c : CState) : Prop :=
  (keysOf c.items).Nodup ∧ c.capacity = cap ∧
    (sumSizes c.items ≤ cap ∨ ∃ q, ∀ e ∈ c.items, e.2 ≠ 0 → e.1 = q)

theorem cacheInsert_inv (cap : Nat) (c : CState) (p : String) (sz : Nat)
    (h : CacheInv cap c) : CacheInv cap (cacheInsert c p sz) := by
  obtain ⟨hnd, hcap, hinv⟩ := h
  have hstep := insertItems_step cap c.items p sz hnd hinv
  have hitems := cacheInsert_items c p sz
  rw [hcap] at hitems
  refine ⟨hitems ▸ hstep.1, ?_, hitems ▸ hstep.2.1⟩
  rw [cacheInsert_capacity]
  exact hcap

theorem insertSeq_inv (cap : Nat) (ops : List (String × Nat)) :
    ∀ c, CacheInv cap c → CacheInv cap (insertSeq c ops) := by
  induction ops with
  | nil =>
    intro c h
    exact h
  | cons op rest ih =>
    intro c h
    exact ih _ (cacheInsert_inv _ _ _ _ h)

/-- The two `insert_with` calls of the C1 counterexample run: capacity 10,
a 20-byte file into entry `a`, then a 0-byte file into entry `b`. -/
def c1runA : InsertOutcome × CState :=
  insertWith (emptyCache 10 []) "a" "f0" true 20 1 Char.isAlphanum

/-- Second step of the C1 counterexample run. -/
def c1runB : InsertOutcome × CState :=
  insertWith c1runA.2 "b" "f1" true 0 2 Char.isAlphanum

/-- C1 counterexample: the claimed disjunction "after `Cache::insert(path,
new_size)` either `sum(index.values()) <= capacity` or `path` is the only
entry remaining in the index" fails on the concrete run that writes a
20-byte file into entry `a` of a capacity-10 cache (admitted, oversized)
and then a 0-byte file into entry `b`: both `insert_with` calls succeed,
yet afterwards the sum is 20 > 10 while the index still holds both `a`
and `b`. -/
theorem c1_counterexample :
    c1runA.1 = .ok "f0" ∧ c1runB.1 = .ok "f1" ∧
      ¬(sumSizes c1runB.2.items ≤ 10 ∨ ∃ s, c1runB.2.items = [("b", s)]) := by
  refine ⟨by decide, by decide, ?_⟩
  rintro (h | ⟨s, hs⟩)
  · exact absurd h (by decide)
  · have hitems : c1runB.2.items = [("a", 20), ("b", 0)] := by decide
    rw [hitems] at hs
    have hlen := congrArg List.length hs
    simp at hlen

/-- C1 (amended): starting from an empty cache, for every sequence of size
registrations and every further `Cache::insert(path, new_size)`, afterwards
either the sum of the sizes stored in the index is within capacity, or all
entries of nonzero size share one single key (the excess is attributable to
a single entry's own bytes); when `new_size ≥ 1` that key is `path` itself:
every entry other than `path` then has size 0 — but `path` need not be the
*only* entry remaining, because zero-size entries can survive eviction. -/
theorem c1_capacity_invariant (cap : Nat) (d : Disk) (ops : List (String × Nat))
    (p : String) (sz : Nat) :
    (sumSizes (cacheInsert (insertSeq (emptyCache cap d) ops) p sz).items ≤ cap ∨
      ∃ q, ∀ e ∈ (cacheInsert (insertSeq (emptyCache cap d) ops) p sz).items,
        e.2 ≠ 0 → e.1 = q) ∧
    (1 ≤ sz →
      sumSizes (cacheInsert (insertSeq (emptyCache cap d) ops) p sz).items ≤ cap ∨
        ∀ e ∈ (cacheInsert (insertSeq (emptyCache cap d) ops) p sz).items,
          e.1 ≠ p → e.2 = 0) := by
  have hinv0 : CacheInv cap (emptyCache cap d) :=
    ⟨by simp [keysOf, emptyCache], rfl, Or.inl (by simp [sumSizes, emptyCache])⟩
  obtain ⟨hnd, hcap, hI⟩ := insertSeq_inv cap ops _ hinv0
  have hstep := insertItems_step cap (insertSeq (emptyCache cap d) ops).items p sz hnd hI
  have hitems := cacheInsert_items (insertSeq (emptyCache cap d) ops) p sz
  rw [hcap] at hitems
  exact ⟨hitems ▸ hstep.2.1, hitems ▸ hstep.2.2⟩

/-- Witness for the amended C1 at a concrete input: capacity 10, history
`[("a", 4), ("b", 9)]`, then an insert of 8 bytes into `c`. -/
theorem c1_capacity_invariant_witness :
    (1 : Nat) ≤ 8 ∧
      (sumSizes (cacheInsert (insertSeq (emptyCache 10 []) [("a", 4), ("b", 9)]) "c" 8).items ≤ 10 ∨
        ∀ e ∈ (cacheInsert (insertSeq (emptyCache 10 []) [("a", 4), ("b", 9)]) "c" 8).items,
          e.1 ≠ "c" → e.2 = 0) :=
  ⟨by decide, (c1_capacity_invariant 10 [] [("a", 4), ("b", 9)] "c" 8).2 (by decide)⟩

/-! ## C2: the eviction algorithm refines the specification's wording -/

theorem evictLoop_of_le (p : String) (m : Nat) (l : Index) (r : Nat)
    (h : m ≤ r) : evictLoop p m l r = (l, [], r) := by
  cases l with
  | nil => simp [evictLoop]
  | cons e rest => simp [evictLoop, h]

theorem evictLoop_eq_spec (p : String) (m : Nat) :
    ∀ (l : Index) (r : Nat), r < m → evictLoop p m l r = evictSpecLoop p m l r := by
  intro l
  induction l with
  | nil =>
    intro r _
    rfl
  | cons e rest ih =>
    intro r hr
    by_cases hp : e.1 = p
    · simp only [evictLoop, if_neg (by omega : ¬m ≤ r), if_pos hp,
        evictSpecLoop, ih r hr]
    · by_cases hs : m ≤ r + e.2
      · simp only [evictLoop, if_neg (by omega : ¬m ≤ r), if_neg hp,
          evictSpecLoop, if_pos hs, evictLoop_of_le p m rest (r + e.2) hs]
      · simp only [evictLoop, if_neg (by omega : ¬m ≤ r), if_neg hp,
          evictSpecLoop, if_neg hs, ih (r + e.2) (by omega)]

theorem orInsertAddSpec_eq (k : String) (n : Nat) :
    ∀ l, orInsertAddSpec k n l = orInsertAdd k n l := by
  intro l
  induction l with
  | nil => simp [orInsertAddSpec, lookupKey, orInsertAdd]
  | cons e rest ih =>
    by_cases h : e.1 = k
    · simp [orInsertAddSpec, lookupKey, h, setValue, orInsertAdd]
    · simp only [orInsertAddSpec, lookupKey, if_neg h] at ih ⊢
      cases hr : lookupKey k rest with
      | none =>
        rw [orInsertAdd_of_none _ _ _ hr] at ih
        simp [orInsertAdd, h, orInsertAdd_of_none k n rest hr]
      | some v =>
        rw [hr] at ih
        simp only [orInsertAdd, if_neg h, setValue, ← ih]

/-- C2 (confirmed): `Cache::insert` implements exactly the specification's
eviction algorithm: `available = max(capacity - total, 0)`; with enough
headroom no eviction happens and only the cumulative entry update is
applied; otherwise the index is walked oldest-first, candidates equal to
`path` are skipped, every other candidate is evicted (removed from the
index, its directory deleted) until `removed ≥ missing` or no candidate
remains, and finally `new_size` is added cumulatively to `path`'s entry
(created at 0 if new) — the insert always succeeds. -/
theorem c2_eviction_algorithm (c : CState) (p : String) (sz : Nat) :
    cacheInsert c p sz = insertSpec c p sz := by
  simp only [cacheInsert, insertSpec]
  have h1 : (if sumSizes c.items ≤ c.capacity then c.capacity - sumSizes c.items else 0)
      = c.capacity - sumSizes c.items := by split <;> omega
  have h2 : Nat.max (c.capacity - sumSizes c.items) 0 = c.capacity - sumSizes c.items :=
    Nat.max_eq_left (Nat.zero_le _)
  rw [h1, h2]
  by_cases hb : c.capacity - sumSizes c.items < sz
  · rw [if_pos hb, if_neg (by omega), evictLoop_eq_spec p _ c.items 0 (by omega),
      orInsertAddSpec_eq]
  · rw [if_neg hb, if_pos (by omega), orInsertAddSpec_eq]

/-! ## C4: mutual exclusion through the process lock -/

/-- C4 (confirmed): while a live `Cache` holds the lock on a root, any
second `Cache::new` over the same root fails with `AlreadyLocked`
(the model's lock table is keyed by the lock-file path alone, so a second
open from the same process behaves like one from another process); after
the first instance is dropped — releasing the OS lock and deleting the
lock file — a subsequent open of the same root succeeds. -/
theorem c4_lock_exclusion (ls ls1 : LockSys) (cap cap2 : Nat) (d d2 : Disk)
    (root : String) (c : CState)
    (h : cacheOpen ls cap d root = (.ok c, ls1)) :
    (cacheOpen ls1 cap2 d2 root).1 = .error .alreadyLocked ∧
      ∃ c2 ls2, cacheOpen (cacheDrop ls1 root) cap d root = (.ok c2, ls2) := by
  by_cases hc : root ∈ ls.held
  · simp [cacheOpen, lockAcquire, hc] at h
  · simp only [cacheOpen, lockAcquire, if_neg hc] at h
    cases hnew : cacheNew cap d with
    | error p =>
      rw [hnew] at h
      simp at h
    | ok c' =>
      rw [hnew] at h
      simp only [Prod.mk.injEq, Except.ok.injEq] at h
      obtain ⟨hc', hls1⟩ := h
      constructor
      · rw [← hls1]
        simp [cacheOpen, lockAcquire]
      · rw [← hls1]
        simp only [cacheDrop, lockRelease, List.erase_cons_head]
        simp only [cacheOpen, lockAcquire, if_neg hc, hnew]
        exact ⟨c', _, rfl⟩

/-- Witness for C4: opening root `r` on a fresh lock table succeeds; the
exclusion and reopen-after-drop conclusions hold there. -/
theorem c4_lock_exclusion_witness :
    cacheOpen ⟨[], []⟩ 5 [] "r" = (.ok (emptyCache 5 []), ⟨["r"], ["r"]⟩) ∧
      ((cacheOpen (⟨["r"], ["r"]⟩ : LockSys) 7 [] "r").1 = .error .alreadyLocked ∧
        ∃ c2 ls2, cacheOpen (cacheDrop ⟨["r"], ["r"]⟩ "r") 5 [] "r" = (.ok c2, ls2)) :=
  ⟨by decide,
    c4_lock_exclusion ⟨[], []⟩ ⟨["r"], ["r"]⟩ 5 7 [] [] "r" (emptyCache 5 []) (by decide)⟩

/-! ## C5: a writer failure leaves the file on disk and the index alone -/

/-- C5 (confirmed): when the caller-supplied writer fails inside
`VacantEntry::insert_with` (name valid, file not already present so the
exclusive create succeeded), the call returns a `Write` error tagged with
the file's path, the created file and the entry directory remain on disk
(no rollback), and the index — hence also the eviction state — is
untouched. -/
theorem c5_writer_failure (c : CState) (key name : String) (written now : Nat)
    (alnum : Char → Bool)
    (hname : check_path alnum name = true)
    (hfile : ∀ o ∈ c.disk, o.rel ≠ [key, name]) :
    (insertWith c key name false written now alnum).1 = .failed (.writeFail key name) ∧
      (insertWith c key name false written now alnum).2.items = c.items ∧
      (insertWith c key name false written now alnum).2.capacity = c.capacity ∧
      fileAt (insertWith c key name false written now alnum).2.disk key name = true ∧
      dirExists (insertWith c key name false written now alnum).2.disk key = true := by
  have hfile1 : fileAt (createDir c.disk key now) key name = false := by
    simp only [fileAt, createDir]
    split
    · simp only [List.any_eq_false, decide_eq_true_eq]
      exact hfile
    · simp only [List.any_append, Bool.or_eq_false_iff, List.any_eq_false,
        decide_eq_true_eq]
      refine ⟨hfile, ?_⟩
      intro o ho
      rw [List.mem_singleton.mp ho]
      simp
  have hdir1 : dirExists (createDir c.disk key now) key = true := by
    simp only [createDir]
    split
    · assumption
    · simp [dirExists, List.any_append]
  have hred : insertWith c key name false written now alnum
      = (.failed (.writeFail key name),
         { c with disk := createDir c.disk key now ++ [⟨[key, name], false, written, now⟩] }) := by
    simp [insertWith, hname, hfile1]
  rw [hred]
  refine ⟨rfl, rfl, rfl, ?_, ?_⟩
  · simp [fileAt, List.any_append]
  · simp only [dirExists, List.any_append, Bool.or_eq_true]
    left
    exact hdir1

/-- Witness for C5 at a concrete input: an empty capacity-3 cache, entry
`k`, file `f`, a failing writer that left 2 bytes behind. -/
theorem c5_writer_failure_witness :
    check_path Char.isAlphanum "f" = true ∧
      (∀ o ∈ (emptyCache 3 []).disk, o.rel ≠ ["k", "f"]) ∧
      (insertWith (emptyCache 3 []) "k" "f" false 2 9 Char.isAlphanum).1
        = .failed (.writeFail "k" "f") ∧
      (insertWith (emptyCache 3 []) "k" "f" false 2 9 Char.isAlphanum).2.items = [] :=
  ⟨by decide, by decide,
    (c5_writer_failure (emptyCache 3 []) "k" "f" 2 9 Char.isAlphanum
      (by decide) (by decide)).1,
    (c5_writer_failure (emptyCache 3 []) "k" "f" 2 9 Char.isAlphanum
      (by decide) (by decide)).2.1⟩

/-! ## C6: index/disk mismatch on lookup is fatal -/

/-- C6 (confirmed): whenever the directory `root/<key>` exists on disk but
`key` is absent from the in-memory index, `Cache::entry(key)` with a valid
key does not return an entry or an error: `occupied_entry` hits the
`panic!("unexpected directory: ...")` branch, modelled by the `fatal`
outcome. -/
theorem c6_fatal_mismatch (c : CState) (key : String) (now : Nat)
    (alnum : Char → Bool)
    (hkey : check_path alnum key = true)
    (hdir : dirExists c.disk key = true)
    (habs : key ∉ keysOf c.items) :
    (cacheEntry c key now false alnum).1 = .fatal := by
  have hnone : getRefresh key c.items = none := by
    simp [getRefresh, (lookupKey_eq_none key c.items).mpr habs]
  simp [cacheEntry, hkey, hdir, hnone]

/-- Witness for C6: a cache whose disk holds directory `k` while the index
is empty. -/
theorem c6_fatal_mismatch_witness :
    check_path Char.isAlphanum "k" = true ∧
      dirExists (CState.mk [] 10 [⟨["k"], true, 0, 0⟩]).disk "k" = true ∧
      "k" ∉ keysOf (CState.mk [] 10 [⟨["k"], true, 0, 0⟩]).items ∧
      (cacheEntry ⟨[], 10, [⟨["k"], true, 0, 0⟩]⟩ "k" 5 false Char.isAlphanum).1 = .fatal :=
  ⟨by decide, by decide, by decide,
    c6_fatal_mismatch ⟨[], 10, [⟨["k"], true, 0, 0⟩]⟩ "k" 5 Char.isAlphanum
      (by decide) (by decide) (by decide)⟩

/-! ## C7: key and name validation -/

/-- C7 (confirmed): for every string `s` (and any alphanumeric test under
which `'.'` is not alphanumeric, as in Rust), validation fails exactly when
`s` is empty, its first character is not alphanumeric (in particular when
it is `'.'`), or some later character is neither alphanumeric nor `'.'`;
an invalid key makes `Cache::entry` fail with `InvalidKey` and an invalid
name makes `insert_with` fail with `InvalidName`, each before any disk or
index mutation (the state is returned unchanged); a valid string never
produces those errors. -/
theorem c7_validation (alnum : Char → Bool) (s : String) (hdot : alnum '.' = false) :
    (check_path alnum s = false ↔
      (s.data = [] ∨ ∃ c cs, s.data = c :: cs ∧
        (alnum c = false ∨ ∃ x ∈ cs, ¬(x = '.' ∨ alnum x = true)))) ∧
    (check_path alnum s = false →
      (∀ c now rdFault, cacheEntry c s now rdFault alnum = (.failed .invalidKey, c)) ∧
      (∀ c key writerOk written now,
        insertWith c key s writerOk written now alnum = (.failed .invalidName, c))) ∧
    (check_path alnum s = true →
      (∀ c now rdFault, (cacheEntry c s now rdFault alnum).1 ≠ .failed .invalidKey) ∧
      (∀ c key writerOk written now,
        (insertWith c key s writerOk written now alnum).1 ≠ .failed .invalidName)) := by
  refine ⟨?_, ?_, ?_⟩
  · cases hs : s.data with
    | nil => simp [check_path, hs]
    | cons c cs =>
      simp only [check_path, hs]
      by_cases hc : c = '.'
      · subst hc
        simp only [if_pos rfl]
        constructor
        · intro _
          exact Or.inr ⟨'.', cs, rfl, Or.inl hdot⟩
        · intro _
          rfl
      · by_cases ha : alnum c = true
        · simp only [if_neg hc, ha, Bool.not_true, Bool.false_eq_true, if_false]
          constructor
          · intro hall
            refine Or.inr ⟨c, cs, rfl, Or.inr ?_⟩
            by_contra hno
            push_neg at hno
            have hat : cs.all (fun x => decide (x = '.') || alnum x) = true := by
              rw [List.all_eq_true]
              intro x hx
              rcases hno x hx with h | h
              · simp [h]
              · simp [h]
            rw [hat] at hall
            exact absurd hall (by simp)
          · rintro (hnil | ⟨c', cs', heq, hbad⟩)
            · exact absurd hnil (List.cons_ne_nil c cs)
            · injection heq with h1 h2
              subst h1
              subst h2
              rcases hbad with hb | ⟨x, hx, hbx⟩
              · rw [ha] at hb
                exact absurd hb (by simp)
              · by_contra hall
                rw [Bool.not_eq_false] at hall
                have hx2 := List.all_eq_true.mp hall x hx
                simp only [Bool.or_eq_true, decide_eq_true_eq] at hx2
                exact hbx hx2
        · have ha' : alnum c = false := by
            rw [Bool.not_eq_true] at ha
            exact ha
          simp only [if_neg hc, ha', Bool.not_false, if_true]
          constructor
          · intro _
            exact Or.inr ⟨c, cs, rfl, Or.inl ha'⟩
          · intro _
            trivial
  · intro hbad
    constructor
    · intro c now rdFault
      simp [cacheEntry, hbad]
    · intro c key writerOk written now
      simp [insertWith, hbad]
  · intro hgood
    constructor
    · intro c now rdFault
      simp only [cacheEntry, hgood, Bool.not_true, Bool.false_eq_true, if_false]
      by_cases hf : rdFault
      · simp [hf]
      · simp only [hf, Bool.false_eq_true, if_false]
        by_cases hd : dirExists c.disk s
        · simp only [hd, Bool.not_true, Bool.false_eq_true, if_false]
          cases getRefresh s c.items <;> simp
        · simp [hd]
    · intro c key writerOk written now
      simp only [insertWith, hgood, Bool.not_true, Bool.false_eq_true, if_false]
      by_cases hf : fileAt (createDir c.disk key now) key s
      · simp [hf]
      · simp only [hf, Bool.false_eq_true, if_false]
        by_cases hw : writerOk <;> simp [hw]

/-- Witness for C7: `'.'` is not alphanumeric, and the invalid key `".bad"`
is rejected by `Cache::entry` with `InvalidKey`, leaving the state alone. -/
theorem c7_validation_witness :
    Char.isAlphanum '.' = false ∧
      cacheEntry (emptyCache 4 []) ".bad" 0 false Char.isAlphanum
        = (.failed .invalidKey, emptyCache 4 []) :=
  ⟨by decide,
    ((c7_validation Char.isAlphanum ".bad" (by decide)).2.1 (by decide)).1
      (emptyCache 4 []) 0 false⟩

/-! ## C8: recency refresh on read and on write -/

theorem mru_append_single (l : Index) (e : String × Nat) :
    mru (l ++ [e]) = some e.1 := by
  simp [mru, List.getLast?_concat]

theorem mru_getRefresh (k : String) (l l1 : Index)
    (h : getRefresh k l = some l1) : mru l1 = some k := by
  unfold getRefresh at h
  cases hl : lookupKey k l with
  | none =>
    rw [hl] at h
    simp at h
  | some v =>
    rw [hl] at h
    simp only [Option.some.injEq] at h
    rw [← h]
    exact mru_append_single _ (k, v)

theorem evictLoop_subset (p : String) (m : Nat) (l : Index) (r : Nat) :
    ∀ e ∈ (evictLoop p m l r).1, e ∈ l := by
  obtain ⟨pr, tl, hsplit, heq, _⟩ := evictLoop_split p m l r
  have h1 : (evictLoop p m l r).1 = pr.filter (fun e => e.1 == p) ++ tl := by rw [heq]
  intro e he
  rw [h1] at he
  rw [hsplit]
  rcases List.mem_append.mp he with h | h
  · exact List.mem_append_left _ ((List.mem_filter.mp h).1)
  · exact List.mem_append_right _ h

theorem mru_insertItems_new (cap : Nat) (l : Index) (p : String) (sz : Nat)
    (h : lookupKey p l = none) : mru (insertItems cap l p sz) = some p := by
  have hp : p ∉ keysOf l := (lookupKey_eq_none p l).mp h
  simp only [insertItems]
  by_cases hb : (if sumSizes l ≤ cap then cap - sumSizes l else 0) < sz
  · rw [if_pos hb]
    have hnone : lookupKey p (evictLoop p (sz - if sumSizes l ≤ cap then cap - sumSizes l else 0) l 0).1 = none := by
      rw [lookupKey_eq_none]
      intro hmem
      obtain ⟨e, he, hek⟩ := List.mem_map.mp hmem
      exact hp (List.mem_map.mpr ⟨e, evictLoop_subset _ _ _ _ e he, hek⟩)
    rw [orInsertAdd_of_none _ _ _ hnone, mru_append_single]
  · rw [if_neg hb, orInsertAdd_of_none _ _ _ h, mru_append_single]

/-- The three `insert_with` calls of the C8 counterexample run: entry `a`
twice (cumulative) with entry `b` registered in between, capacity 100. -/
def c8runA : InsertOutcome × CState :=
  insertWith (emptyCache 100 []) "a" "f1" true 1 1 Char.isAlphanum

/-- Second step of the C8 counterexample run. -/
def c8runB : InsertOutcome × CState :=
  insertWith c8runA.2 "b" "f1" true 1 2 Char.isAlphanum

/-- Third step of the C8 counterexample run: a second file into `a` through
the still-held vacant handle. -/
def c8runC : InsertOutcome × CState :=
  insertWith c8runB.2 "a" "f2" true 1 3 Char.isAlphanum

/-- C8 counterexample: a successful `insert_with` that registers a size for
an entry already present in the index does *not* make it the
most-recently-used element.  Concretely: registering `a`, then `b`, then
`a` again (second file, same vacant handle) leaves the index ordered
`[a, b]` — the most-recently-used element is still `b`, because
`*map.entry(path).or_insert(0) += new_sz` updates an existing
`linked_hash_map` entry in place without refreshing its position. -/
theorem c8_counterexample :
    c8runA.1 = .ok "f1" ∧ c8runB.1 = .ok "f1" ∧ c8runC.1 = .ok "f2" ∧
      mru c8runC.2.items = some "b" ∧ mru c8runC.2.items ≠ some "a" := by
  refine ⟨by decide, by decide, by decide, by decide, by decide⟩

/-- C8 (amended): after every `Cache::entry(key)` that returns `Occupied`,
`root/<key>` is the most-recently-used element of the index
(`get_refresh` moves it to the back); and after every successful
`insert_with` that registers `(path, size)` for a `path` *not yet present*
in the index, `path` is likewise the most-recently-used element (a vacant
`entry(..).or_insert(..)` appends at the back).  A registration against a
path already present updates its cumulative size in place and does not
refresh its recency. -/
theorem c8_recency (c : CState) (key name : String) (now written : Nat)
    (alnum : Char → Bool) :
    (∀ fs c1, cacheEntry c key now false alnum = (.occupied fs, c1) →
      mru c1.items = some key) ∧
    (∀ wOk nameOut c1,
      insertWith c key name wOk written now alnum = (.ok nameOut, c1) →
      lookupKey key c.items = none →
      mru c1.items = some key) := by
  constructor
  · intro fs c1 h
    by_cases hk : check_path alnum key
    · by_cases hd : dirExists c.disk key
      · cases hr : getRefresh key c.items with
        | none =>
          simp [cacheEntry, hk, hd, hr] at h
        | some l1 =>
          simp only [cacheEntry, hk, Bool.not_true, Bool.false_eq_true, if_false,
            hd, hr] at h
          obtain ⟨-, hc1⟩ := Prod.mk.injEq .. ▸ h
          rw [← hc1]
          exact mru_getRefresh key c.items l1 hr
      · simp [cacheEntry, hk, hd] at h
    · simp [cacheEntry, hk] at h
  · intro wOk nameOut c1 h hnone
    by_cases hn : check_path alnum name
    · by_cases hf : fileAt (createDir c.disk key now) key name
      · simp [insertWith, hn, hf] at h
      · cases hw : wOk with
        | false =>
          subst hw
          simp [insertWith, hn, hf] at h
        | true =>
          subst hw
          simp only [insertWith, hn, Bool.not_true, Bool.false_eq_true, if_false,
            hf, Bool.not_false, if_true, Prod.mk.injEq, InsertOutcome.ok.injEq] at h
          obtain ⟨-, hc1⟩ := h
          rw [← hc1, cacheInsert_items]
          exact mru_insertItems_new _ _ _ _ hnone
    · simp [insertWith, hn] at h

/-- Witness for the amended C8: reading entry `k` refreshes it to
most-recently-used, and a first-time registration lands at the back. -/
theorem c8_recency_witness :
    cacheEntry ⟨[("k", 3), ("j", 4)], 10, [⟨["k"], true, 0, 0⟩]⟩ "k" 7 false
        Char.isAlphanum
      = (.occupied [],
         ⟨[("j", 4), ("k", 3)], 10, [⟨["k"], true, 0, 0⟩]⟩) ∧
      mru ([("j", 4), ("k", 3)] : Index) = some "k" ∧
      insertWith (emptyCache 10 []) "w" "f" true 2 5 Char.isAlphanum
        = (.ok "f", ⟨[("w", 2)], 10,
            [⟨["w"], true, 0, 5⟩, ⟨["w", "f"], false, 2, 5⟩]⟩) ∧
      mru ([("w", 2)] : Index) = some "w" :=
  ⟨by decide,
    (c8_recency ⟨[("k", 3), ("j", 4)], 10, [⟨["k"], true, 0, 0⟩]⟩ "k" "" 7 0
      Char.isAlphanum).1 []
      ⟨[("j", 4), ("k", 3)], 10, [⟨["k"], true, 0, 0⟩]⟩ (by decide),
    by decide,
    (c8_recency (emptyCache 10 []) "w" "f" 5 2 Char.isAlphanum).2 true "f"
      ⟨[("w", 2)], 10, [⟨["w"], true, 0, 5⟩, ⟨["w", "f"], false, 2, 5⟩]⟩
      (by decide) (by decide)⟩

/-! ## C9: entry lookup dispatch -/

/-- Whether an entry-lookup outcome is `Occupied`. -/
def isOccupied : EntryOutcome → Bool
  | .occupied _ => true
  | _ => false

/-- C9 counterexample: with directory `k` on disk but `k` absent from the
index (the reachable state of C10), the directory read succeeds and yet
`Cache::entry("k")` does not return `Occupied` — it hits the fatal
`panic!` branch instead. -/
theorem c9_counterexample :
    check_path Char.isAlphanum "k" = true ∧
      dirExists (CState.mk [] 10 [⟨["k"], true, 0, 0⟩]).disk "k" = true ∧
      (cacheEntry ⟨[], 10, [⟨["k"], true, 0, 0⟩]⟩ "k" 5 false Char.isAlphanum).1 = .fatal ∧
      isOccupied (cacheEntry ⟨[], 10, [⟨["k"], true, 0, 0⟩]⟩ "k" 5 false Char.isAlphanum).1
        = false := by
  refine ⟨by decide, by decide, by decide, by decide⟩

theorem getRefresh_of_mem (k : String) (l : Index) (h : k ∈ keysOf l) :
    ∃ v, lookupKey k l = some v ∧ getRefresh k l = some (removeKey k l ++ [(k, v)]) := by
  cases hl : lookupKey k l with
  | none => exact absurd h ((lookupKey_eq_none k l).mp hl)
  | some v =>
    refine ⟨v, rfl, ?_⟩
    simp [getRefresh, hl]

/-- C9 (amended): for every valid key, `Cache::entry(key)` returns `Vacant`
if and only if the directory read fails with not-found (no injected fault
and no directory on disk), and then mutates nothing; an injected non-not-
found I/O failure is returned as a `ReadDir` error tagged with the key's
path; when the directory read succeeds, the entry is `Occupied` —
enumerating only the immediate *file* children, subdirectories ignored —
provided the key is present in the in-memory index, and otherwise the
fatal mismatch branch of C6 is taken instead of returning `Occupied`. -/
theorem c9_entry_dispatch (c : CState) (key : String) (now : Nat) (rdFault : Bool)
    (alnum : Char → Bool) (hk : check_path alnum key = true) :
    ((cacheEntry c key now rdFault alnum).1 = .vacant ↔
      (rdFault = false ∧ dirExists c.disk key = false)) ∧
    ((cacheEntry c key now rdFault alnum).1 = .vacant →
      (cacheEntry c key now rdFault alnum).2 = c) ∧
    (rdFault = true →
      cacheEntry c key now rdFault alnum = (.failed (.readDirFail key), c)) ∧
    (rdFault = false → dirExists c.disk key = true →
      (key ∈ keysOf c.items →
        (cacheEntry c key now rdFault alnum).1 = .occupied (entryFileNames c.disk key)) ∧
      (key ∉ keysOf c.items → (cacheEntry c key now rdFault alnum).1 = .fatal)) := by
  cases rdFault with
  | true =>
    refine ⟨by simp [cacheEntry, hk], by simp [cacheEntry, hk], fun _ => by simp [cacheEntry, hk], by simp⟩
  | false =>
    by_cases hd : dirExists c.disk key
    · have hocc : ∀ out, (cacheEntry c key now false alnum).1 = out →
          out = .fatal ∨ ∃ fs, out = .occupied fs := by
        intro out hout
        cases hr : getRefresh key c.items with
        | none =>
          simp [cacheEntry, hk, hd, hr] at hout
          exact Or.inl hout.symm
        | some l1 =>
          simp [cacheEntry, hk, hd, hr] at hout
          exact Or.inr ⟨_, hout.symm⟩
      refine ⟨?_, ?_, by simp, ?_⟩
      · constructor
        · intro hv
          rcases hocc _ hv with h | ⟨fs, h⟩ <;> simp at h
        · rintro ⟨-, hdf⟩
          rw [hd] at hdf
          cases hdf
      · intro hv
        rcases hocc _ hv with h | ⟨fs, h⟩ <;> simp at h
      · intro _ _
        constructor
        · intro hmem
          obtain ⟨v, hl, hr⟩ := getRefresh_of_mem key c.items hmem
          simp [cacheEntry, hk, hd, hr]
        · intro habs
          have hnone : getRefresh key c.items = none := by
            simp [getRefresh, (lookupKey_eq_none key c.items).mpr habs]
          simp [cacheEntry, hk, hd, hnone]
    · have hred : cacheEntry c key now false alnum = (.vacant, c) := by
        simp [cacheEntry, hk, hd]
      rw [hred]
      refine ⟨?_, fun _ => rfl, by simp, ?_⟩
      · constructor
        · intro _
          exact ⟨rfl, by simpa using hd⟩
        · intro _
          rfl
      · intro _ hdt
        rw [hdt] at hd
        exact absurd rfl hd

/-- The cache state of the C9 witness: one indexed entry `k` whose
directory holds a file `f` and a subdirectory `sub`. -/
def c9wit : CState :=
  ⟨[("k", 1)], 10,
    [⟨["k"], true, 0, 0⟩, ⟨["k", "f"], false, 1, 2⟩, ⟨["k", "sub"], true, 0, 3⟩]⟩

/-- Witness for the amended C9: on `c9wit` the lookup of `k` is `Occupied`
and lists only the file child `f`, ignoring the subdirectory `sub`. -/
theorem c9_entry_dispatch_witness :
    check_path Char.isAlphanum "k" = true ∧
      (cacheEntry c9wit "k" 9 false Char.isAlphanum).1 = .occupied ["f"] := by
  refine ⟨by decide, ?_⟩
  have h := ((c9_entry_dispatch c9wit "k" 9 false Char.isAlphanum (by decide)).2.2.2
    rfl (by decide)).1 (by decide)
  rw [h]
  decide

/-! ## C3: the recovery scan -/

/-- Folding the per-group accumulation of the recovery scan over a tree:
maximum modification time and summed size of the entry `k`'s files,
starting from `ms`. -/
def scanFold (k : String) (d : Disk) (ms : Nat × Nat) : Nat × Nat :=
  d.foldl (fun ms o =>
    if isEntryFile k o then (Nat.max ms.1 o.mtime, ms.2 + o.size) else ms) ms

theorem scan_cons_dir (o : FsObject) (rest : Disk) (acc : GAcc)
    (hdir : o.isDir = true) : scan (o :: rest) acc = scan rest acc := by
  simp [scan, hdir]

theorem scan_cons_lock (o : FsObject) (rest : Disk) (acc : GAcc)
    (hdir : o.isDir = false) (hlock : o.rel = [".lock"]) :
    scan (o :: rest) acc = scan rest acc := by
  simp [scan, hdir, hlock]

theorem scan_cons_file (o : FsObject) (rest : Disk) (acc : GAcc) (k1 n1 : String)
    (hdir : o.isDir = false) (hrel : o.rel = [k1, n1]) :
    scan (o :: rest) acc = scan rest (groupAdd k1 o.mtime o.size acc) := by
  have hlock : ¬(o.rel = [".lock"]) := by simp [hrel]
  simp [scan, hdir, hrel, hlock]

theorem scan_cons_err (o : FsObject) (rest : Disk) (acc : GAcc)
    (hdir : o.isDir = false) (hlock : o.rel ≠ [".lock"])
    (hlen : o.rel.length ≠ 2) :
    scan (o :: rest) acc = .error o.rel := by
  rcases hrel : o.rel with _ | ⟨k1, _ | ⟨n1, _ | ⟨x, xs⟩⟩⟩
  · simp [scan, hdir, hrel]
  · have hk1 : ¬(k1 = ".lock") := fun hc => hlock (by rw [hrel, hc])
    simp [scan, hdir, hrel, hk1]
  · exact absurd (by simp [hrel]) hlen
  · simp [scan, hdir, hrel]

theorem rel_two_of_length (o : FsObject) (h : o.rel.length = 2) :
    ∃ k1 n1, o.rel = [k1, n1] := by
  rcases hrel : o.rel with _ | ⟨k1, _ | ⟨n1, _ | ⟨x, xs⟩⟩⟩ <;>
    simp [hrel] at h ⊢

theorem scan_error_mem : ∀ (d : Disk) (acc : GAcc) (p : List String),
    scan d acc = .error p →
    ∃ o ∈ d, o.isDir = false ∧ o.rel ≠ [".lock"] ∧ o.rel.length ≠ 2 ∧ p = o.rel := by
  intro d
  induction d with
  | nil =>
    intro acc p h
    simp [scan] at h
  | cons o rest ih =>
    intro acc p h
    by_cases hdir : o.isDir
    · rw [scan_cons_dir o rest acc hdir] at h
      obtain ⟨o1, ho1, hprops⟩ := ih acc p h
      exact ⟨o1, List.mem_cons_of_mem _ ho1, hprops⟩
    · have hdir1 : o.isDir = false := by simpa using hdir
      by_cases hlock : o.rel = [".lock"]
      · rw [scan_cons_lock o rest acc hdir1 hlock] at h
        obtain ⟨o1, ho1, hprops⟩ := ih acc p h
        exact ⟨o1, List.mem_cons_of_mem _ ho1, hprops⟩
      · by_cases hlen : o.rel.length = 2
        · obtain ⟨k1, n1, hrel⟩ := rel_two_of_length o hlen
          rw [scan_cons_file o rest acc k1 n1 hdir1 hrel] at h
          obtain ⟨o1, ho1, hprops⟩ := ih _ p h
          exact ⟨o1, List.mem_cons_of_mem _ ho1, hprops⟩
        · rw [scan_cons_err o rest acc hdir1 hlock hlen] at h
          refine ⟨o, List.mem_cons_self _ _, hdir1, hlock, hlen, ?_⟩
          simpa using h.symm

theorem scan_ok_wellFormed : ∀ (d : Disk) (acc : GAcc) (g : GAcc),
    scan d acc = .ok g → WellFormed d := by
  intro d
  induction d with
  | nil =>
    intro acc g _ o ho
    simp at ho
  | cons o rest ih =>
    intro acc g h o1 ho1
    by_cases hdir : o.isDir
    · rw [scan_cons_dir o rest acc hdir] at h
      rcases List.mem_cons.mp ho1 with rfl | hmem
      · intro hfalse
        rw [hdir] at hfalse
        cases hfalse
      · exact ih acc g h o1 hmem
    · have hdir1 : o.isDir = false := by simpa using hdir
      by_cases hlock : o.rel = [".lock"]
      · rw [scan_cons_lock o rest acc hdir1 hlock] at h
        rcases List.mem_cons.mp ho1 with rfl | hmem
        · intro _ hne
          exact absurd hlock hne
        · exact ih acc g h o1 hmem
      · by_cases hlen : o.rel.length = 2
        · obtain ⟨k1, n1, hrel⟩ := rel_two_of_length o hlen
          rw [scan_cons_file o rest acc k1 n1 hdir1 hrel] at h
          rcases List.mem_cons.mp ho1 with rfl | hmem
          · intro _ _
            exact hlen
          · exact ih _ g h o1 hmem
        · rw [scan_cons_err o rest acc hdir1 hlock hlen] at h
          cases h

theorem scan_ok_of_wellFormed (d : Disk) (acc : GAcc) (hwf : WellFormed d) :
    ∃ g, scan d acc = .ok g := by
  cases h : scan d acc with
  | ok g => exact ⟨g, rfl⟩
  | error p =>
    obtain ⟨o, ho, hd, hl, hlen, -⟩ := scan_error_mem d acc p h
    exact absurd (hwf o ho hd hl) hlen

theorem lookupG_groupAdd (k k1 : String) (mt sz : Nat) (acc : GAcc) :
    lookupG k (groupAdd k1 mt sz acc)
      = if k = k1 then
          some (match lookupG k acc with
                | none => (Nat.max 0 mt, 0 + sz)
                | some ms => (Nat.max ms.1 mt, ms.2 + sz))
        else lookupG k acc := by
  induction acc with
  | nil =>
    by_cases h : k = k1
    · subst h
      simp [groupAdd, lookupG]
    · simp [groupAdd, lookupG, h, Ne.symm h]
  | cons g rest ih =>
    by_cases hg : g.1 = k1
    · rw [show groupAdd k1 mt sz (g :: rest)
          = (g.1, Nat.max g.2.1 mt, g.2.2 + sz) :: rest from by simp [groupAdd, hg]]
      by_cases hk : k = k1
      · subst hk
        simp [lookupG, hg]
      · have : ¬(g.1 = k) := fun hc => hk (hc ▸ hg)
        simp [lookupG, this, hk]
    · rw [show groupAdd k1 mt sz (g :: rest) = g :: groupAdd k1 mt sz rest from by
        simp [groupAdd, hg]]
      by_cases hgk : g.1 = k
      · have hk : ¬(k = k1) := fun hc => hg (hgk ▸ hc ▸ rfl)
        simp [lookupG, hgk, hk]
      · simp [lookupG, hgk, ih]

theorem lookupG_eq_none (k : String) (g : GAcc) :
    lookupG k g = none ↔ k ∉ g.map Prod.fst := by
  induction g with
  | nil => simp [lookupG]
  | cons e rest ih =>
    by_cases h : e.1 = k
    · simp [lookupG, h]
    · simp [lookupG, h, ih, Ne.symm h]

theorem scan_ok_lookupG : ∀ (d : Disk) (acc g : GAcc), scan d acc = .ok g →
    ∀ k, lookupG k g
      = match lookupG k acc with
        | some ms => some (scanFold k d ms)
        | none =>
          if d.any (isEntryFile k) then some (scanFold k d (0, 0)) else none := by
  intro d
  induction d with
  | nil =>
    intro acc g h k
    rw [show g = acc from by simpa [scan] using h.symm]
    cases hl : lookupG k acc <;> simp [scanFold, hl]
  | cons o rest ih =>
    intro acc g h k
    by_cases hdir : o.isDir
    · rw [scan_cons_dir o rest acc hdir] at h
      have hskip : isEntryFile k o = false := by simp [isEntryFile, hdir]
      have hfold : ∀ ms, scanFold k (o :: rest) ms = scanFold k rest ms := by
        intro ms
        simp [scanFold, hskip]
      have hany : (o :: rest).any (isEntryFile k) = rest.any (isEntryFile k) := by
        simp [List.any_cons, hskip]
      rw [ih acc g h k]
      cases hl : lookupG k acc <;> simp [hfold, hany]
    · have hdir1 : o.isDir = false := by simpa using hdir
      by_cases hlock : o.rel = [".lock"]
      · rw [scan_cons_lock o rest acc hdir1 hlock] at h
        have hskip : isEntryFile k o = false := by
          simp [isEntryFile, hdir1, hlock]
        have hfold : ∀ ms, scanFold k (o :: rest) ms = scanFold k rest ms := by
          intro ms
          simp [scanFold, hskip]
        have hany : (o :: rest).any (isEntryFile k) = rest.any (isEntryFile k) := by
          simp [List.any_cons, hskip]
        rw [ih acc g h k]
        cases hl : lookupG k acc <;> simp [hfold, hany]
      · by_cases hlen : o.rel.length = 2
        · obtain ⟨k1, n1, hrel⟩ := rel_two_of_length o hlen
          rw [scan_cons_file o rest acc k1 n1 hdir1 hrel] at h
          rw [ih _ g h k, lookupG_groupAdd]
          by_cases hk : k = k1
          · subst hk
            have hent : isEntryFile k o = true := by
              simp [isEntryFile, hdir1, hrel]
            have hfold : ∀ ms, scanFold k (o :: rest) ms
                = scanFold k rest (Nat.max ms.1 o.mtime, ms.2 + o.size) := by
              intro ms
              simp [scanFold, hent]
            have hany : (o :: rest).any (isEntryFile k) = true := by
              simp [List.any_cons, hent]
            rw [if_pos rfl]
            cases hl : lookupG k acc <;> simp [hfold, hany, hl]
          · have hent : isEntryFile k o = false := by
              simp [isEntryFile, hrel, Ne.symm hk]
            have hfold : ∀ ms, scanFold k (o :: rest) ms = scanFold k rest ms := by
              intro ms
              simp [scanFold, hent]
            have hany : (o :: rest).any (isEntryFile k) = rest.any (isEntryFile k) := by
              simp [List.any_cons, hent]
            rw [if_neg hk]
            cases hl : lookupG k acc <;> simp [hfold, hany, hl]
        · rw [scan_cons_err o rest acc hdir1 hlock hlen] at h
          cases h

theorem natZero_max (a : Nat) : Nat.max 0 a = a := Nat.zero_max a

theorem natMax_zero (a : Nat) : Nat.max a 0 = a := Nat.max_zero a

theorem natMax_assoc (a b c : Nat) :
    Nat.max (Nat.max a b) c = Nat.max a (Nat.max b c) := Nat.max_assoc a b c

theorem foldl_max_shift : ∀ (l : List Nat) (a : Nat),
    l.foldl Nat.max a = Nat.max a (l.foldl Nat.max 0) := by
  intro l
  induction l with
  | nil =>
    intro a
    simp [Nat.max_zero]
  | cons x xs ih =>
    intro a
    simp only [List.foldl_cons]
    rw [ih (Nat.max a x), ih (Nat.max 0 x), natZero_max, natMax_assoc]

theorem scanFold_eq (k : String) : ∀ (d : Disk) (ms : Nat × Nat),
    scanFold k d ms = (Nat.max ms.1 (groupMax d k), ms.2 + groupSize d k) := by
  intro d
  induction d with
  | nil =>
    intro ms
    simp [scanFold, groupMax, groupSize, groupFiles, natMax_zero]
  | cons o rest ih =>
    intro ms
    by_cases h : isEntryFile k o
    · have h1 : scanFold k (o :: rest) ms
          = scanFold k rest (Nat.max ms.1 o.mtime, ms.2 + o.size) := by
        simp [scanFold, h]
      have hgf : groupFiles (o :: rest) k = o :: groupFiles rest k := by
        simp [groupFiles, List.filter_cons, h]
      have hmax : groupMax (o :: rest) k = Nat.max o.mtime (groupMax rest k) := by
        simp only [groupMax, hgf, List.map_cons, List.foldl_cons]
        rw [foldl_max_shift, natZero_max]
      have hsz : groupSize (o :: rest) k = o.size + groupSize rest k := by
        simp [groupSize, hgf]
      rw [h1, ih, hmax, hsz]
      dsimp only
      rw [natMax_assoc, Nat.add_assoc]
    · have h1 : scanFold k (o :: rest) ms = scanFold k rest ms := by
        simp [scanFold, h]
      have hgf : groupFiles (o :: rest) k = groupFiles rest k := by
        simp [groupFiles, List.filter_cons, h]
      rw [h1, ih,
        show groupMax (o :: rest) k = groupMax rest k from by simp [groupMax, hgf],
        show groupSize (o :: rest) k = groupSize rest k from by simp [groupSize, hgf]]

theorem nodup_keys_groupAdd (k1 : String) (mt sz : Nat) :
    ∀ (acc : GAcc), (acc.map Prod.fst).Nodup →
      ((groupAdd k1 mt sz acc).map Prod.fst).Nodup := by
  intro acc
  induction acc with
  | nil =>
    intro _
    simp [groupAdd]
  | cons g rest ih =>
    intro h
    simp only [List.map_cons, List.nodup_cons] at h
    by_cases hg : g.1 = k1
    · rw [show groupAdd k1 mt sz (g :: rest)
          = (g.1, Nat.max g.2.1 mt, g.2.2 + sz) :: rest from by simp [groupAdd, hg]]
      simp only [List.map_cons, List.nodup_cons]
      exact h
    · rw [show groupAdd k1 mt sz (g :: rest) = g :: groupAdd k1 mt sz rest from by
        simp [groupAdd, hg]]
      simp only [List.map_cons, List.nodup_cons]
      refine ⟨?_, ih h.2⟩
      intro hmem
      rcases hkeys : lookupG g.1 (groupAdd k1 mt sz rest) with _ | v
      · exact (lookupG_eq_none _ _).mp hkeys hmem
      · have := lookupG_groupAdd g.1 k1 mt sz rest
        rw [hkeys, if_neg hg] at this
        exact h.1 ((lookupG_eq_none g.1 rest).not_left.mp (by rw [← this]; simp))

theorem scan_ok_keys_nodup : ∀ (d : Disk) (acc g : GAcc), scan d acc = .ok g →
    (acc.map Prod.fst).Nodup → (g.map Prod.fst).Nodup := by
  intro d
  induction d with
  | nil =>
    intro acc g h hnd
    rw [show g = acc from by simpa [scan] using h.symm]
    exact hnd
  | cons o rest ih =>
    intro acc g h hnd
    by_cases hdir : o.isDir
    · rw [scan_cons_dir o rest acc hdir] at h
      exact ih acc g h hnd
    · have hdir1 : o.isDir = false := by simpa using hdir
      by_cases hlock : o.rel = [".lock"]
      · rw [scan_cons_lock o rest acc hdir1 hlock] at h
        exact ih acc g h hnd
      · by_cases hlen : o.rel.length = 2
        · obtain ⟨k1, n1, hrel⟩ := rel_two_of_length o hlen
          rw [scan_cons_file o rest acc k1 n1 hdir1 hrel] at h
          exact ih _ g h (nodup_keys_groupAdd k1 o.mtime o.size acc hnd)
        · rw [scan_cons_err o rest acc hdir1 hlock hlen] at h
          cases h

theorem mem_lookupG : ∀ (g : GAcc), (g.map Prod.fst).Nodup →
    ∀ e ∈ g, lookupG e.1 g = some e.2 := by
  intro g
  induction g with
  | nil =>
    intro _ e he
    simp at he
  | cons f rest ih =>
    intro hnd e he
    simp only [List.map_cons, List.nodup_cons] at hnd
    rcases List.mem_cons.mp he with rfl | hmem
    · simp [lookupG]
    · have hne : ¬(f.1 = e.1) := by
        intro hc
        exact hnd.1 (hc ▸ List.mem_map_of_mem Prod.fst hmem)
      simp only [lookupG, if_neg hne]
      exact ih hnd.2 e hmem

theorem insertSorted_perm (x : String × Nat × Nat) :
    ∀ (l : GAcc), (insertSorted x l).Perm (x :: l) := by
  intro l
  induction l with
  | nil => simp [insertSorted]
  | cons y rest ih =>
    by_cases h : x.2.1 < y.2.1
    · simp [insertSorted, h]
    · rw [show insertSorted x (y :: rest) = y :: insertSorted x rest from by
        simp [insertSorted, h]]
      exact (ih.cons y).trans (List.Perm.swap x y rest)

theorem foldl_insertSorted_perm :
    ∀ (l acc : GAcc), (l.foldl (fun acc x => insertSorted x acc) acc).Perm (acc ++ l) := by
  intro l
  induction l with
  | nil =>
    intro acc
    simp
  | cons x xs ih =>
    intro acc
    simp only [List.foldl_cons]
    refine (ih (insertSorted x acc)).trans ?_
    refine ((insertSorted_perm x acc).append_right xs).trans ?_
    exact List.perm_middle.symm

theorem sortByMtime_perm (l : GAcc) : (sortByMtime l).Perm l := by
  simpa [sortByMtime] using foldl_insertSorted_perm l []

theorem insertSorted_sorted (x : String × Nat × Nat) :
    ∀ (l : GAcc), l.Pairwise (fun a b => a.2.1 ≤ b.2.1) →
      (insertSorted x l).Pairwise (fun a b => a.2.1 ≤ b.2.1) := by
  intro l
  induction l with
  | nil =>
    intro _
    simp [insertSorted]
  | cons y rest ih =>
    intro h
    obtain ⟨hy, hrest⟩ := List.pairwise_cons.mp h
    by_cases hlt : x.2.1 < y.2.1
    · rw [show insertSorted x (y :: rest) = x :: y :: rest from by
        simp [insertSorted, hlt]]
      refine List.pairwise_cons.mpr ⟨?_, h⟩
      intro b hb
      rcases List.mem_cons.mp hb with rfl | hmem
      · omega
      · have := hy b hmem
        omega
    · rw [show insertSorted x (y :: rest) = y :: insertSorted x rest from by
        simp [insertSorted, hlt]]
      refine List.pairwise_cons.mpr ⟨?_, ih hrest⟩
      intro b hb
      rcases List.mem_cons.mp ((insertSorted_perm x rest).mem_iff.mp hb) with rfl | hmem
      · omega
      · exact hy b hmem

theorem foldl_insertSorted_sorted :
    ∀ (l acc : GAcc), acc.Pairwise (fun a b => a.2.1 ≤ b.2.1) →
      (l.foldl (fun acc x => insertSorted x acc) acc).Pairwise
        (fun a b => a.2.1 ≤ b.2.1) := by
  intro l
  induction l with
  | nil =>
    intro acc h
    simpa using h
  | cons x xs ih =>
    intro acc h
    simp only [List.foldl_cons]
    exact ih _ (insertSorted_sorted x acc h)

theorem sortByMtime_sorted (l : GAcc) :
    (sortByMtime l).Pairwise (fun a b => a.2.1 ≤ b.2.1) :=
  foldl_insertSorted_sorted l [] (by simp)

/-- What a successful recovery produces: the scan groups of a well-formed
tree, with summed sizes, keyed by first components of the files on disk,
sorted ascending by maximum modification time. -/
theorem cacheNew_ok_char (cap : Nat) (d : Disk) (hwf : WellFormed d) :
    ∃ c, cacheNew cap d = .ok c ∧ c.capacity = cap ∧ c.disk = d ∧
      (∀ k, k ∈ keysOf c.items ↔ d.any (isEntryFile k) = true) ∧
      (∀ e ∈ c.items, e.2 = groupSize d e.1) ∧
      c.items.Pairwise (fun e f => groupMax d e.1 ≤ groupMax d f.1) := by
  obtain ⟨g, hscan⟩ := scan_ok_of_wellFormed d [] hwf
  have hlook : ∀ k, lookupG k g
      = if d.any (isEntryFile k) then some (scanFold k d (0, 0)) else none := by
    intro k
    have h1 := scan_ok_lookupG d [] g hscan k
    simpa [lookupG] using h1
  have hnd : (g.map Prod.fst).Nodup := scan_ok_keys_nodup d [] g hscan (by simp)
  have hval : ∀ gr ∈ g, gr.2 = scanFold gr.1 d (0, 0) := by
    intro gr hgr
    have h1 := mem_lookupG g hnd gr hgr
    have h2 := hlook gr.1
    rw [h1] at h2
    by_cases hany : d.any (isEntryFile gr.1) = true
    · rw [if_pos hany] at h2
      exact Option.some.injEq .. ▸ h2
    · rw [if_neg hany] at h2
      cases h2
  have hvalSort : ∀ gr ∈ sortByMtime g, gr.2 = scanFold gr.1 d (0, 0) :=
    fun gr hgr => hval gr ((sortByMtime_perm g).mem_iff.mp hgr)
  refine ⟨⟨(sortByMtime g).map (fun gr => (gr.1, gr.2.2)), cap, d⟩,
    by simp [cacheNew, hscan], rfl, rfl, ?_, ?_, ?_⟩
  · intro k
    have hkeys : keysOf ((sortByMtime g).map (fun gr => (gr.1, gr.2.2)))
        = (sortByMtime g).map Prod.fst := by
      simp [keysOf]
    rw [show CState.items ⟨(sortByMtime g).map (fun gr => (gr.1, gr.2.2)), cap, d⟩
        = (sortByMtime g).map (fun gr => (gr.1, gr.2.2)) from rfl, hkeys]
    rw [((sortByMtime_perm g).map Prod.fst).mem_iff]
    constructor
    · intro hmem
      by_cases hany : d.any (isEntryFile k) = true
      · exact hany
      · have h2 := hlook k
        rw [if_neg hany] at h2
        exact absurd hmem ((lookupG_eq_none k g).mp h2)
    · intro hany
      by_contra hmem
      have h2 := hlook k
      rw [if_pos hany] at h2
      rw [(lookupG_eq_none k g).mpr hmem] at h2
      cases h2
  · intro e he
    obtain ⟨gr, hgr, hge⟩ := List.mem_map.mp he
    rw [← hge]
    dsimp only
    rw [hvalSort gr hgr, scanFold_eq]
    dsimp only
    omega
  · rw [show CState.items ⟨(sortByMtime g).map (fun gr => (gr.1, gr.2.2)), cap, d⟩
        = (sortByMtime g).map (fun gr => (gr.1, gr.2.2)) from rfl]
    rw [List.pairwise_map]
    refine (sortByMtime_sorted g).imp_of_mem ?_
    intro a b ha hb hr
    have hha : a.2.1 = groupMax d a.1 := by
      rw [hvalSort a ha, scanFold_eq]
      dsimp only
      rw [natZero_max]
    have hhb : b.2.1 = groupMax d b.1 := by
      rw [hvalSort b hb, scanFold_eq]
      dsimp only
      rw [natZero_max]
    dsimp only
    rw [← hha, ← hhb]
    exact hr

/-- C3 (confirmed): `Cache::new` enumerates all filesystem objects, skips
directories themselves and the lock file, and requires every remaining
object to sit exactly two components below the root — otherwise
construction aborts with a `Structure` error carrying such an offending
object's path.  On success the index holds exactly one entry per group of
files sharing a first component, with the group's summed byte length as its
size, ordered ascending by the group's maximum modification time (oldest
group first). -/
theorem c3_recovery_scan (cap : Nat) (d : Disk) :
    (¬WellFormed d → ∃ p, cacheNew cap d = .error p ∧
      ∃ o ∈ d, o.isDir = false ∧ o.rel ≠ [".lock"] ∧ o.rel.length ≠ 2 ∧ p = o.rel) ∧
    (WellFormed d → ∃ c, cacheNew cap d = .ok c ∧ c.capacity = cap ∧ c.disk = d ∧
      (∀ k, k ∈ keysOf c.items ↔ d.any (isEntryFile k) = true) ∧
      (∀ e ∈ c.items, e.2 = groupSize d e.1) ∧
      c.items.Pairwise (fun e f => groupMax d e.1 ≤ groupMax d f.1)) := by
  constructor
  · intro hnwf
    cases hscan : scan d [] with
    | ok g => exact absurd (scan_ok_wellFormed d [] g hscan) hnwf
    | error p =>
      exact ⟨p, by simp [cacheNew, hscan], scan_error_mem d [] p hscan⟩
  · exact cacheNew_ok_char cap d

/-- The on-disk tree of the C3 witness: two populated entries with distinct
modification times, an empty directory, and the lock file. -/
def c3wit : Disk :=
  [⟨["a"], true, 0, 0⟩, ⟨["a", "x"], false, 3, 5⟩, ⟨["a", "y"], false, 2, 9⟩,
   ⟨["b"], true, 0, 0⟩, ⟨["b", "z"], false, 4, 2⟩, ⟨[".lock"], false, 0, 7⟩]

/-- Witness for C3 at a concrete tree: recovery succeeds and produces the
index `[b ↦ 4, a ↦ 5]` (group `b` has the older maximum mtime). -/
theorem c3_recovery_scan_witness :
    WellFormed c3wit ∧
      (∃ c, cacheNew 100 c3wit = .ok c ∧ c.capacity = 100 ∧ c.disk = c3wit ∧
        (∀ k, k ∈ keysOf c.items ↔ c3wit.any (isEntryFile k) = true) ∧
        (∀ e ∈ c.items, e.2 = groupSize c3wit e.1) ∧
        c.items.Pairwise (fun e f => groupMax c3wit e.1 ≤ groupMax c3wit f.1)) :=
  ⟨by decide, (c3_recovery_scan 100 c3wit).2 (by decide)⟩

/-! ## C10: empty entry directories after recovery -/

/-- C10 (confirmed): when `root/<key>` exists on disk as a directory with no
files in it (and the rest of the tree is well-formed), `Cache::new`
succeeds but creates no index entry for the key — the directory contributes
nothing to `size()` or `len()` — and a subsequent `Cache::entry(key)` then
finds the directory on disk while the key is absent from the index,
reaching the fatal mismatch branch. -/
theorem c10_empty_dir (cap : Nat) (d : Disk) (k : String) (now : Nat)
    (alnum : Char → Bool)
    (hwf : WellFormed d)
    (hk : check_path alnum k = true)
    (hdir : dirExists d k = true)
    (hnof : d.any (isEntryFile k) = false) :
    ∃ c, cacheNew cap d = .ok c ∧ k ∉ keysOf c.items ∧
      (cacheEntry c k now false alnum).1 = .fatal := by
  obtain ⟨c, hok, hcap, hdisk, hkeys, -, -⟩ := cacheNew_ok_char cap d hwf
  have habs : k ∉ keysOf c.items := by
    intro hmem
    have h1 := (hkeys k).mp hmem
    rw [hnof] at h1
    cases h1
  refine ⟨c, hok, habs, ?_⟩
  have hnone : getRefresh k c.items = none := by
    simp [getRefresh, (lookupKey_eq_none k c.items).mpr habs]
  rw [← hdisk] at hdir
  simp [cacheEntry, hk, hdir, hnone]

/-- Witness for C10: a tree holding an empty directory `e` next to a
populated entry `a`. -/
theorem c10_empty_dir_witness :
    WellFormed [⟨["e"], true, 0, 1⟩, ⟨["a"], true, 0, 0⟩, ⟨["a", "f"], false, 2, 3⟩] ∧
      check_path Char.isAlphanum "e" = true ∧
      (∃ c, cacheNew 9 [⟨["e"], true, 0, 1⟩, ⟨["a"], true, 0, 0⟩,
          ⟨["a", "f"], false, 2, 3⟩] = .ok c ∧
        "e" ∉ keysOf c.items ∧
        (cacheEntry c "e" 4 false Char.isAlphanum).1 = .fatal) :=
  ⟨by decide, by decide,
    c10_empty_dir 9 [⟨["e"], true, 0, 1⟩, ⟨["a"], true, 0, 0⟩, ⟨["a", "f"], false, 2, 3⟩]
      "e" 4 Char.isAlphanum (by decide) (by decide) (by decide) (by decide)⟩

end Roadtrip
